import Mathlib

/-!
Verification development for the telraam-analysis repository.

This file gives a shallow embedding, in Lean 4, of the enrichment and
coverage-analysis core of the repository (src/availability.py and
src/enriched_data_handler.py), and proves the specified properties about it.

Modelling conventions:
* Hourly timestamps are natural numbers (hours since an arbitrary epoch);
  the `day` of a record is `date / 24` and its `hour` is `date % 24`, mirroring
  `dt.date` / `dt.hour` on an hourly timeline in one fixed time zone.
* Uptimes and thresholds are rationals (the source compares and adds floats
  whose values in all relevant tests are exact decimals).
* Dataframes are lists of structures, one structure field per column; the
  row order of a list models the row order of the dataframe.
* `pandas.groupby` (which sorts group keys and keeps within-group row order)
  is modelled as: sort the deduplicated keys, then for each key filter the
  rows matching that key.  `list(set(...))` (arbitrary but fixed iteration
  order) is modelled as `List.dedup`.
-/

namespace Telraam

/-! ## Combination enumeration (src/availability.py, `get_combinations`, lines 8-26) -/

/-- All combinations of length `r` of the elements of a list, in the order
produced by the Python function `itertools.combinations`: each combination keeps the
input order, and combinations containing earlier elements come first. -/
def combosLen {α : Type} : Nat → List α → List (List α)
  | 0, _ => [[]]
  | _ + 1, [] => []
  | r + 1, x :: xs => (combosLen r xs).map (x :: ·) ++ combosLen (r + 1) xs

/-- Model of `get_combinations(names)` (availability.py lines 8-26):
`chain.from_iterable(combinations(names, r) for r in range(2, len(names) + 1))`.
`range(2, len(names) + 1)` is `List.range' 2 (names.length - 1)` (it is empty
whenever `len(names) < 2`). -/
def get_combinations (names : List String) : List (List String) :=
  (List.range' 2 (names.length - 1)).flatMap (fun r => combosLen r names)

theorem mem_combosLen {α : Type} :
    ∀ (r : Nat) (names l : List α), l ∈ combosLen r names ↔ l.Sublist names ∧ l.length = r := by
  intro r names
  induction names generalizing r with
  | nil =>
    intro l
    cases r with
    | zero =>
      simp only [combosLen, List.mem_singleton]
      constructor
      · rintro rfl; exact ⟨List.Sublist.refl _, rfl⟩
      · rintro ⟨hs, _⟩; exact List.sublist_nil.mp hs
    | succ r =>
      simp only [combosLen, List.not_mem_nil, false_iff, not_and]
      intro hs
      have : l = [] := List.sublist_nil.mp hs
      subst this
      simp
  | cons x xs ih =>
    intro l
    cases r with
    | zero =>
      simp only [combosLen, List.mem_singleton]
      constructor
      · rintro rfl; exact ⟨List.nil_sublist _, rfl⟩
      · rintro ⟨_, hl⟩; exact List.length_eq_zero.mp hl
    | succ r =>
      simp only [combosLen, List.mem_append, List.mem_map]
      constructor
      · rintro (⟨t, ht, rfl⟩ | h)
        · rcases (ih r t).mp ht with ⟨hs, hlen⟩
          exact ⟨List.Sublist.cons₂ x hs, by simp [hlen]⟩
        · rcases (ih (r + 1) l).mp h with ⟨hs, hlen⟩
          exact ⟨List.Sublist.cons x hs, hlen⟩
      · rintro ⟨hs, hlen⟩
        cases hs with
        | cons _ hs' => exact Or.inr ((ih (r + 1) l).mpr ⟨hs', hlen⟩)
        | cons₂ _ hs' =>
          exact Or.inl ⟨_, (ih r _).mpr ⟨hs', by simpa using hlen⟩, rfl⟩

theorem mem_get_combinations (names l : List String) :
    l ∈ get_combinations names ↔ l.Sublist names ∧ 2 ≤ l.length := by
  simp only [get_combinations, List.mem_flatMap, List.mem_range'_1, mem_combosLen]
  constructor
  · rintro ⟨r, ⟨h2, _⟩, hs, rfl⟩
    exact ⟨hs, h2⟩
  · rintro ⟨hs, h2⟩
    refine ⟨l.length, ⟨h2, ?_⟩, hs, rfl⟩
    have hle := hs.length_le
    omega

/-! ## Availability grid (src/availability.py, `create_all_dates` and
`DataAvailabilityMapper.availability`, lines 29-112) -/

/-- One row of the enriched dataframe handed to `DataAvailabilityMapper`,
restricted to the columns the mapper reads: `segment_fullname`, the hourly
timestamp `date`, and `uptime`.  The `day` column the mapper also reads in
`best_combinations_details` is derived as `date / 24` (see the header). -/
structure MapperRow where
  segment_fullname : String
  date : Nat
  uptime : ℚ
deriving DecidableEq

/-- One cell of the hourly availability grid (`availability`, lines 89-105). -/
structure Cell where
  segment_fullname : String
  date : Nat
  hour : Nat
  day : Nat
  uptime : ℚ
deriving DecidableEq

/-- Model of `min(data["date"])`: the groupby in `availability` preserves the set of
dates, so this is the minimum date over the input rows. -/
def dminDates (rows : List MapperRow) : Nat :=
  match rows with
  | [] => 0
  | r :: rs => rs.foldl (fun m x => min m x.date) r.date

/-- Model of `max(data["date"])`, as the maximum date over the input rows. -/
def dmaxDates (rows : List MapperRow) : Nat :=
  match rows with
  | [] => 0
  | r :: rs => rs.foldl (fun m x => max m x.date) r.date

/-- Model of `create_all_dates` (availability.py lines 29-63): the cross product of
every hour of `pd.date_range(start, end, freq="H")` (outer loop, via
`np.repeat`) with every instance (inner loop), as (date, instance) pairs. -/
def create_all_dates (instances : List String) (start_date end_date : Nat) :
    List (Nat × String) :=
  (List.range' start_date (end_date + 1 - start_date)).flatMap
    (fun h => instances.map (fun s => (h, s)))

/-- The uptime that the left merge of `dates_ref` with the grouped data puts
in a grid cell (lines 89-104): the groupby collapses the input to one row per
(segment_fullname, date) carrying the max uptime, the left merge looks that
row up, and `fillna(0)` replaces a missing match by 0. -/
def mergedUptime (rows : List MapperRow) (s : String) (h : Nat) : ℚ :=
  match (rows.filter (fun r => decide (r.segment_fullname = s ∧ r.date = h))).map
      (fun r => r.uptime) with
  | [] => 0
  | u :: us => us.foldl max u

/-- Model of `DataAvailabilityMapper.availability()` at hour level (lines 89-105):
build `dates_ref` over `list(set(segment_fullname))` and the inclusive hourly
range of the data, left-merge the per-(segment, date) max uptimes onto it,
fill missing uptimes with 0, and derive the `day` column. -/
def availability (rows : List MapperRow) : List Cell :=
  (create_all_dates ((rows.map (fun r => r.segment_fullname)).dedup)
      (dminDates rows) (dmaxDates rows)).map
    (fun p =>
      { segment_fullname := p.2, date := p.1, hour := p.1 % 24, day := p.1 / 24,
        uptime := mergedUptime rows p.2 p.1 })

/-- One row of the day-level availability grid. -/
structure DayEntry where
  day : Nat
  segment_fullname : String
  uptime : ℚ
deriving DecidableEq

/-- Ordering of the (day, segment_fullname) group keys produced by
`groupby(["day", "segment_fullname"])`, which sorts keys lexicographically. -/
def keyLe (a b : Nat × String) : Prop :=
  a.1 < b.1 ∨ (a.1 = b.1 ∧ a.2 ≤ b.2)

instance : DecidableRel keyLe := fun a b =>
  inferInstanceAs (Decidable (a.1 < b.1 ∨ (a.1 = b.1 ∧ a.2 ≤ b.2)))

/-- Model of `availability(level_day=True)` (lines 106-111): group the hourly grid by
(day, segment_fullname) and sum the uptimes; groupby sorts the keys. -/
def availability_day (rows : List MapperRow) : List DayEntry :=
  (List.insertionSort keyLe
      (((availability rows).map (fun c => (c.day, c.segment_fullname))).dedup)).map
    (fun k =>
      { day := k.1, segment_fullname := k.2,
        uptime := (((availability rows).filter
            (fun c => decide (c.day = k.1 ∧ c.segment_fullname = k.2))).map
              (fun c => c.uptime)).sum })

/-! ## Combination engine (src/availability.py, lines 152-236) -/

/-- The threshold filter of `__available_segments_by_day` (line 162):
`segment_by_day[segment_by_day["uptime"] > uptime_threshold]`. -/
def qualifying_rows (uptime_threshold : ℚ) (rows : List MapperRow) : List DayEntry :=
  (availability_day rows).filter (fun e => decide (uptime_threshold < e.uptime))

/-- Model of `__available_segments_by_day` (lines 152-171): filter the day-level grid
by `uptime > threshold`, group by day into lists of segment_fullnames
(groupby sorts the days, within-group order is the grid order), attach
`get_combinations`, drop days with an empty combination list, and explode
into one (day, combination) row per pair. -/
def available_segments_by_day (uptime_threshold : ℚ) (rows : List MapperRow) :
    List (Nat × List String) :=
  (((List.insertionSort (· ≤ ·)
        (((qualifying_rows uptime_threshold rows).map (fun e => e.day)).dedup)).map
      (fun d => (d, get_combinations
        (((qualifying_rows uptime_threshold rows).filter
            (fun e => decide (e.day = d))).map (fun e => e.segment_fullname))))).filter
    (fun p => decide (0 < p.2.length))).flatMap
    (fun p => p.2.map (fun c => (p.1, c)))

/-- One row of the `counter_combinations` output. -/
structure CEntry where
  combinations : List String
  available_days : Nat
  combination_length : Nat
deriving DecidableEq

/-- Python tuple comparison (used by pandas when `groupby("combinations")`
sorts the combination keys): elementwise on the members, a strict prefix
comparing smaller. -/
def comboLeb : List String → List String → Bool
  | [], _ => true
  | _ :: _, [] => false
  | a :: as, b :: bs => if a < b then true else if a = b then comboLeb as bs else false

def comboLe (a b : List String) : Prop := comboLeb a b = true

instance : DecidableRel comboLe := fun a b =>
  inferInstanceAs (Decidable (comboLeb a b = true))

/-- Model of `counter_combinations` (lines 173-189): group the exploded (day,
combination) rows by combination (sorted keys), count the rows of each group
into `available_days`, and attach `combination_length = len(combination)`. -/
def counter_combinations (uptime_threshold : ℚ) (rows : List MapperRow) : List CEntry :=
  (List.insertionSort comboLe
      (((available_segments_by_day uptime_threshold rows).map (fun p => p.2)).dedup)).map
    (fun c =>
      { combinations := c,
        available_days := ((available_segments_by_day uptime_threshold rows).filter
          (fun p => decide (p.2 = c))).length,
        combination_length := c.length })

/-- The maximum of a list of day counts, as folded by `idxmax`. -/
def maxDays (g : List CEntry) : Nat :=
  (g.map (fun e => e.available_days)).foldl max 0

/-- The `idxmax` selection step of `best_combinations` (lines 200-204):
group the counted combinations by `combination_length` (sorted lengths) and
keep, per length, the first row of the group attaining the maximum
`available_days` (`idxmax` returns the first index of the maximum). -/
def best_of_counter (ctr : List CEntry) : List CEntry :=
  (List.insertionSort (· ≤ ·)
      ((ctr.map (fun e => e.combination_length)).dedup)).filterMap
    (fun L => (ctr.filter (fun e => decide (e.combination_length = L))).find?
      (fun e => decide (e.available_days
        = maxDays (ctr.filter (fun e => decide (e.combination_length = L))))))

/-- Model of `best_combinations` (lines 191-204). -/
def best_combinations (uptime_threshold : ℚ) (rows : List MapperRow) : List CEntry :=
  best_of_counter (counter_combinations uptime_threshold rows)

/-- Model of `best_combinations_details` (lines 206-236).  The lookup
`top_combinations[...]["combinations"].values[0]` raises an uncaught
`IndexError` when no best combination of the requested length exists; this is
modelled by `Except.error ("IndexError")`.  Otherwise the function returns the
enriched rows whose `segment_fullname` is in the winning combination and
whose `day` is in the qualifying-day list of that combination. -/
def best_combinations_details (combination_length : Nat) (uptime_threshold : ℚ)
    (rows : List MapperRow) : Except String (List MapperRow) :=
  match ((best_combinations uptime_threshold rows).filter
      (fun e => decide (e.combination_length = combination_length))).map
      (fun e => e.combinations) with
  | [] => Except.error ("IndexError")
  | c :: _ =>
    Except.ok (rows.filter (fun r => decide (r.segment_fullname ∈ c
      ∧ r.date / 24 ∈ ((available_segments_by_day uptime_threshold rows).filter
          (fun p => decide (p.2 = c))).map (fun p => p.1))))

instance {ε α : Type} [DecidableEq ε] [DecidableEq α] : DecidableEq (Except ε α) := fun x y =>
  match x, y with
  | .error a, .error b => decidable_of_iff (a = b) (by simp)
  | .ok a, .ok b => decidable_of_iff (a = b) (by simp)
  | .error _, .ok _ => isFalse (fun h => by cases h)
  | .ok _, .error _ => isFalse (fun h => by cases h)

/-! ## General list lemmas used throughout -/

theorem foldl_max_mem {α : Type} [LinearOrder α] :
    ∀ (l : List α) (a : α), l.foldl max a ∈ a :: l := by
  intro l
  induction l with
  | nil => intro a; simp
  | cons b t ih =>
    intro a
    have h := ih (max a b)
    rcases max_choice a b with hm | hm <;>
      simp only [List.foldl_cons, hm] at h ⊢ <;>
      rcases List.mem_cons.mp h with h' | h' <;> simp [h']

theorem le_foldl_max {α : Type} [LinearOrder α] :
    ∀ (l : List α) (a : α), a ≤ l.foldl max a ∧ ∀ x ∈ l, x ≤ l.foldl max a := by
  intro l
  induction l with
  | nil => intro a; simp
  | cons b t ih =>
    intro a
    rcases ih (max a b) with ⟨h1, h2⟩
    refine ⟨le_trans (le_max_left a b) h1, ?_⟩
    intro x hx
    rcases List.mem_cons.mp hx with rfl | hx'
    · exact le_trans (le_max_right a x) h1
    · exact h2 x hx'

theorem countP_flatMap {α β : Type} (l : List α) (f : α → List β) (p : β → Bool) :
    (l.flatMap f).countP p = (l.map (fun a => (f a).countP p)).sum := by
  induction l with
  | nil => simp
  | cons a t ih => simp [List.flatMap_cons, List.countP_append, ih]

theorem sum_ite_nodup {α : Type} [DecidableEq α] (c : Nat) (x : α) :
    ∀ (l : List α), l.Nodup →
      (l.map (fun a => if a = x then c else 0)).sum = if x ∈ l then c else 0 := by
  intro l
  induction l with
  | nil => simp
  | cons a t ih =>
    intro hn
    rcases List.nodup_cons.mp hn with ⟨ha, ht⟩
    by_cases hax : a = x
    · subst hax
      simp [ha, ih ht]
    · simp only [List.map_cons, List.sum_cons, if_neg hax, Nat.zero_add, ih ht,
        List.mem_cons]
      by_cases hx : x ∈ t <;> simp [hx, Ne.symm hax]

theorem length_filter_le_one {α κ : Type} [DecidableEq κ] (f : α → κ) (k : κ) :
    ∀ (l : List α), (l.map f).Nodup →
      (l.filter (fun a => decide (f a = k))).length ≤ 1 := by
  intro l
  induction l with
  | nil => intro _; simp
  | cons a t ih =>
    intro hn
    rw [List.map_cons] at hn
    rcases List.nodup_cons.mp hn with ⟨ha, ht⟩
    by_cases hak : f a = k
    · have ht0 : t.filter (fun x => decide (f x = k)) = [] := by
        rw [List.filter_eq_nil_iff]
        intro x hx
        simp only [decide_eq_true_eq]
        intro hfx
        have hm : f x ∈ List.map f t := List.mem_map_of_mem f hx
        rw [hfx, ← hak] at hm
        exact ha hm
      simp [List.filter_cons, hak, ht0]
    · simpa [List.filter_cons, hak] using ih ht

theorem length_flatMap_one {α β : Type} (f : α → List β) :
    ∀ (l : List α), (∀ a ∈ l, (f a).length = 1) → (l.flatMap f).length = l.length := by
  intro l
  induction l with
  | nil => intro _; simp
  | cons a t ih =>
    intro h
    simp only [List.flatMap_cons, List.length_append, List.length_cons,
      h a (List.mem_cons_self a t), ih (fun x hx => h x (List.mem_cons_of_mem a hx))]
    omega

theorem find?_split {α : Type} (p : α → Bool) :
    ∀ (l : List α) (a : α), l.find? p = some a →
      ∃ l₁ l₂, l = l₁ ++ a :: l₂ ∧ ∀ x ∈ l₁, p x = false := by
  intro l
  induction l with
  | nil => intro a h; simp at h
  | cons b t ih =>
    intro a h
    by_cases hb : p b
    · rw [List.find?_cons_of_pos _ hb] at h
      have hba : b = a := by simpa using h
      subst hba
      exact ⟨[], t, rfl, by simp⟩
    · rw [List.find?_cons_of_neg _ hb] at h
      rcases ih a h with ⟨l₁, l₂, rfl, hl₁⟩
      refine ⟨b :: l₁, l₂, rfl, ?_⟩
      intro x hx
      rcases List.mem_cons.mp hx with rfl | hx'
      · exact Bool.eq_false_iff.mpr hb
      · exact hl₁ x hx'

theorem map_filterMap_total {κ β : Type} (f : κ → Option β) (g : β → κ) :
    ∀ (l : List κ), (∀ a ∈ l, ∃ b, f a = some b ∧ g b = a) →
      (l.filterMap f).map g = l := by
  intro l
  induction l with
  | nil => intro _; simp
  | cons a t ih =>
    intro h
    rcases h a (List.mem_cons_self a t) with ⟨b, hb, hgb⟩
    simp [List.filterMap_cons, hb, hgb, ih (fun x hx => h x (List.mem_cons_of_mem a hx))]

theorem nodup_map_fst_of_snd_const {κ₁ κ₂ : Type} (s₀ : κ₂) :
    ∀ (K : List (κ₁ × κ₂)), K.Nodup → (∀ k ∈ K, k.2 = s₀) →
      (K.map Prod.fst).Nodup := by
  intro K
  induction K with
  | nil => intro _ _; simp
  | cons k t ih =>
    intro hn hc
    rcases List.nodup_cons.mp hn with ⟨hk, ht⟩
    refine List.nodup_cons.mpr ⟨?_, ih ht (fun x hx => hc x (List.mem_cons_of_mem k hx))⟩
    intro hmem
    rcases List.mem_map.mp hmem with ⟨k', hk', hfst⟩
    have : k = k' := Prod.ext hfst.symm (by
      rw [hc k (List.mem_cons_self k t), hc k' (List.mem_cons_of_mem k hk')])
    exact hk (this ▸ hk')

/-! ## C1: combination completeness -/

/-- A 2-day window (day 0 at hour 23, day 1 at hour 24) in which segments
`A`, `B`, `C` are all available on both days with uptime 1. -/
def c1_rows : List MapperRow :=
  [⟨"A", 23, 1⟩, ⟨"B", 23, 1⟩, ⟨"C", 23, 1⟩, ⟨"A", 24, 1⟩, ⟨"B", 24, 1⟩, ⟨"C", 24, 1⟩]

/-- C1: `get_combinations` generates exactly the subsets (sublists) of size 2
up to the full list length, and on a 2-day window where `A`, `B`, `C` all
qualify on both days, `counter_combinations` yields exactly the rows
`(A,B)`, `(A,B,C)`, `(A,C)`, `(B,C)` (in the sorted key order of the
groupby), each with `available_days = 2`. -/
theorem c1_combination_completeness :
    (∀ (names l : List String),
      l ∈ get_combinations names ↔ l.Sublist names ∧ 2 ≤ l.length)
    ∧ counter_combinations 0 c1_rows =
        [⟨["A", "B"], 2, 2⟩, ⟨["A", "B", "C"], 2, 3⟩,
         ⟨["A", "C"], 2, 2⟩, ⟨["B", "C"], 2, 2⟩] :=
  ⟨mem_get_combinations, by with_unfolding_all decide⟩

/-- Witness: instantiating the completeness part of C1 at `["A","B","C"]` shows
the pair `("A","C")` (a non-contiguous subset) is generated. -/
theorem c1_combination_completeness_witness :
    ["A", "C"] ∈ get_combinations ["A", "B", "C"] :=
  (c1_combination_completeness.1 ["A", "B", "C"] ["A", "C"]).mpr
    ⟨by decide, by decide⟩

/-! ## C2: grid completeness -/

theorem foldl_natmin_bounds {α : Type} (f : α → Nat) :
    ∀ (t : List α) (a : Nat),
      t.foldl (fun m x => min m (f x)) a ≤ a
      ∧ ∀ x ∈ t, t.foldl (fun m x => min m (f x)) a ≤ f x := by
  intro t
  induction t with
  | nil => intro a; simp
  | cons b u ih =>
    intro a
    rcases ih (min a (f b)) with ⟨h1, h2⟩
    refine ⟨le_trans h1 (Nat.min_le_left _ _), ?_⟩
    intro x hx
    rcases List.mem_cons.mp hx with rfl | hx'
    · exact le_trans h1 (Nat.min_le_right _ _)
    · exact h2 x hx'

theorem foldl_natmax_bounds {α : Type} (f : α → Nat) :
    ∀ (t : List α) (a : Nat),
      a ≤ t.foldl (fun m x => max m (f x)) a
      ∧ ∀ x ∈ t, f x ≤ t.foldl (fun m x => max m (f x)) a := by
  intro t
  induction t with
  | nil => intro a; simp
  | cons b u ih =>
    intro a
    rcases ih (max a (f b)) with ⟨h1, h2⟩
    refine ⟨le_trans (Nat.le_max_left _ _) h1, ?_⟩
    intro x hx
    rcases List.mem_cons.mp hx with rfl | hx'
    · exact le_trans (Nat.le_max_right _ _) h1
    · exact h2 x hx'

theorem dminDates_le {rows : List MapperRow} :
    ∀ r ∈ rows, dminDates rows ≤ r.date := by
  intro r hr
  match rows, hr with
  | r₀ :: rs, hr =>
    rcases List.mem_cons.mp hr with rfl | hr'
    · exact (foldl_natmin_bounds (fun x => x.date) rs r.date).1
    · exact (foldl_natmin_bounds (fun x => x.date) rs r₀.date).2 r hr'

theorem le_dmaxDates {rows : List MapperRow} :
    ∀ r ∈ rows, r.date ≤ dmaxDates rows := by
  intro r hr
  match rows, hr with
  | r₀ :: rs, hr =>
    rcases List.mem_cons.mp hr with rfl | hr'
    · exact (foldl_natmax_bounds (fun x => x.date) rs r.date).1
    · exact (foldl_natmax_bounds (fun x => x.date) rs r₀.date).2 r hr'

theorem sum_map_const {α : Type} (c : Nat) :
    ∀ (l : List α), (l.map (fun _ => c)).sum = l.length * c := by
  intro l
  induction l with
  | nil => simp
  | cons a t ih => simp [ih, Nat.succ_mul, Nat.add_comm]

theorem countP_eq_one_of_nodup {α : Type} [DecidableEq α] (x : α) :
    ∀ (l : List α), l.Nodup → x ∈ l →
      l.countP (fun a => decide (a = x)) = 1 := by
  intro l
  induction l with
  | nil => intro _ h; simp at h
  | cons a t ih =>
    intro hn hm
    rcases List.nodup_cons.mp hn with ⟨ha, ht⟩
    rcases List.mem_cons.mp hm with rfl | hm'
    · have h0 : t.countP (fun a => decide (a = x)) = 0 := by
        rw [List.countP_eq_zero]
        intro y hy
        simp only [decide_eq_true_eq]
        rintro rfl
        exact ha hy
      simp [List.countP_cons, h0]
    · have hax : ¬(a = x) := fun h => ha (h ▸ hm')
      simp [List.countP_cons, hax, ih ht hm']

theorem length_availability (rows : List MapperRow) :
    (availability rows).length
      = ((rows.map (fun r => r.segment_fullname)).dedup).length
        * (dmaxDates rows + 1 - dminDates rows) := by
  rw [availability, List.length_map, create_all_dates, List.length_flatMap]
  have : ∀ h : Nat,
      (List.length ∘ fun h =>
        ((rows.map (fun r => r.segment_fullname)).dedup).map (fun s => (h, s))) h
      = ((rows.map (fun r => r.segment_fullname)).dedup).length := by
    intro h; simp
  rw [List.map_congr_left (fun a _ => this a), sum_map_const, List.length_range']
  exact Nat.mul_comm _ _

theorem countP_congr' {α : Type} (p q : α → Bool) :
    ∀ (l : List α), (∀ a ∈ l, p a = q a) → l.countP p = l.countP q := by
  intro l
  induction l with
  | nil => intro _; simp
  | cons a t ih =>
    intro h
    simp [List.countP_cons, h a (List.mem_cons_self a t),
      ih (fun x hx => h x (List.mem_cons_of_mem a hx))]

theorem count_availability (rows : List MapperRow) (s : String) (h : Nat)
    (hs : s ∈ rows.map (fun r => r.segment_fullname))
    (h1 : dminDates rows ≤ h) (h2 : h ≤ dmaxDates rows) :
    ((availability rows).filter
      (fun c => decide (c.segment_fullname = s ∧ c.date = h))).length = 1 := by
  rw [← List.countP_eq_length_filter, availability, List.countP_map, create_all_dates,
    countP_flatMap]
  have hinner : ∀ h' : Nat,
      List.countP
        ((fun c => decide (c.segment_fullname = s ∧ c.date = h)) ∘ fun p =>
          ({ segment_fullname := p.2, date := p.1, hour := p.1 % 24, day := p.1 / 24,
             uptime := mergedUptime rows p.2 p.1 } : Cell))
        (List.map (fun s' => (h', s')) (rows.map (fun r => r.segment_fullname)).dedup)
      = if h' = h then 1 else 0 := by
    intro h'
    rw [List.countP_map]
    by_cases hh : h' = h
    · subst hh
      rw [countP_congr' _ (fun s' => decide (s' = s)) _ (by intro a _; simp [Function.comp])]
      rw [if_pos rfl]
      exact countP_eq_one_of_nodup s _ (List.nodup_dedup _) (List.mem_dedup.mpr hs)
    · rw [countP_congr' _ (fun _ => false) _ (by intro a _; simp [Function.comp, hh])]
      simp [hh]
  simp only [hinner]
  rw [sum_ite_nodup 1 h _ (List.nodup_range' _ _)]
  have hmem : h ∈ List.range' (dminDates rows) (dmaxDates rows + 1 - dminDates rows) := by
    rw [List.mem_range'_1]
    omega
  rw [if_pos hmem]

/-- Rows with one segment observed at one hour twice (duplicate readings). -/
def c2_rows : List MapperRow := [⟨"A", 5, 1⟩, ⟨"A", 5, 1/2⟩]

/-- C2: for non-empty input the hourly grid has exactly
`|distinct segments| * |hours in [min(date), max(date)]|` cells, exactly one
cell per (segment, hour) pair in range, and each cell's uptime is 0 when no
input row matches its (segment, hour) key and otherwise the maximum uptime
among the matching rows. -/
theorem c2_grid_completeness (rows : List MapperRow) (hne : rows ≠ []) :
    (availability rows).length
      = ((rows.map (fun r => r.segment_fullname)).dedup).length
        * (dmaxDates rows + 1 - dminDates rows)
    ∧ (∀ s h, s ∈ rows.map (fun r => r.segment_fullname) →
        dminDates rows ≤ h → h ≤ dmaxDates rows →
        ((availability rows).filter
          (fun c => decide (c.segment_fullname = s ∧ c.date = h))).length = 1)
    ∧ ∀ c ∈ availability rows,
        (rows.filter (fun r => decide (r.segment_fullname = c.segment_fullname
            ∧ r.date = c.date)) = [] → c.uptime = 0)
        ∧ (rows.filter (fun r => decide (r.segment_fullname = c.segment_fullname
            ∧ r.date = c.date)) ≠ [] →
            c.uptime ∈ (rows.filter (fun r => decide (r.segment_fullname = c.segment_fullname
              ∧ r.date = c.date))).map (fun r => r.uptime)
            ∧ ∀ u ∈ (rows.filter (fun r => decide (r.segment_fullname = c.segment_fullname
              ∧ r.date = c.date))).map (fun r => r.uptime), u ≤ c.uptime) := by
  refine ⟨length_availability rows, count_availability rows, ?_⟩
  intro c hc
  rcases List.mem_map.mp hc with ⟨p, _, rfl⟩
  constructor
  · intro hnil
    simp only [mergedUptime, hnil, List.map_nil]
  · intro hnnil
    rcases hfe : (rows.filter (fun r => decide (r.segment_fullname = p.2 ∧ r.date = p.1))).map
        (fun r => r.uptime) with _ | ⟨u, us⟩
    · exact absurd (List.map_eq_nil_iff.mp hfe) hnnil
    · constructor
      · show mergedUptime rows p.2 p.1 ∈ _
        rw [mergedUptime, hfe, ← hfe]
        rw [hfe]
        exact foldl_max_mem us u
      · intro u' hu'
        show u' ≤ mergedUptime rows p.2 p.1
        rw [mergedUptime, hfe]
        rw [hfe] at hu'
        rcases List.mem_cons.mp hu' with rfl | hu''
        · exact (le_foldl_max us u').1
        · exact (le_foldl_max us u).2 u' hu''

/-- Witness for C2 at a concrete two-row input with duplicate (segment, hour)
readings. -/
theorem c2_grid_completeness_witness :
    ((availability c2_rows).filter
      (fun c => decide (c.segment_fullname = "A" ∧ c.date = 5))).length = 1 :=
  (c2_grid_completeness c2_rows (by decide)).2.1 ("A") 5 (by decide) (by decide) (by decide)

/-! ## C6: strict threshold -/

/-- C6: a day-level grid row qualifies for combination enumeration iff
`uptime > threshold` (strict): membership in the filtered table is exactly
day-grid membership plus `threshold < uptime`; concretely, with
`threshold = 0.5` an uptime of exactly `0.5` is excluded while `0.50001`
is included. -/
theorem availability_day_singleton (s : String) (d : Nat) (u : ℚ) :
    availability_day [⟨s, d, u⟩] = [⟨d / 24, s, u⟩] := by
  have hd : d + 1 - d = 1 := by omega
  simp [availability_day, availability, create_all_dates, dminDates, dmaxDates,
    mergedUptime, hd, List.insertionSort, List.orderedInsert]

theorem c6_aux_day_grid : availability_day [⟨"A", 0, 1/2⟩] = [⟨0, "A", 1/2⟩] := by
  simpa using availability_day_singleton ("A") 0 (1/2)

theorem c6_aux_excluded : qualifying_rows (1/2) [⟨"A", 0, 1/2⟩] = [] := by
  rw [qualifying_rows, c6_aux_day_grid]
  simp [List.filter_cons]

theorem c6_aux_included :
    qualifying_rows (1/2) [⟨"A", 0, 50001/100000⟩] = [⟨0, "A", 50001/100000⟩] := by
  rw [qualifying_rows]
  rw [show availability_day [⟨"A", 0, 50001/100000⟩] = [⟨0, "A", 50001/100000⟩] by
    simpa using availability_day_singleton ("A") 0 (50001/100000)]
  simp only [List.filter_cons, List.filter_nil]
  norm_num

theorem c6_threshold_strict :
    (∀ (threshold : ℚ) (rows : List MapperRow) (e : DayEntry),
      e ∈ qualifying_rows threshold rows
        ↔ e ∈ availability_day rows ∧ threshold < e.uptime)
    ∧ availability_day [⟨"A", 0, 1/2⟩] = [⟨0, "A", 1/2⟩]
    ∧ qualifying_rows (1/2) [⟨"A", 0, 1/2⟩] = []
    ∧ qualifying_rows (1/2) [⟨"A", 0, 50001/100000⟩] = [⟨0, "A", 50001/100000⟩] :=
  ⟨fun threshold rows e => by simp [qualifying_rows, List.mem_filter],
    c6_aux_day_grid, c6_aux_excluded, c6_aux_included⟩

/-- Witness for C6: at `threshold = 0.5`, the day entry with uptime exactly
`0.5` is not in the qualifying table even though it is in the day grid. -/
theorem c6_threshold_strict_witness :
    (⟨0, "A", 1/2⟩ : DayEntry) ∉ qualifying_rows (1/2) [⟨"A", 0, 1/2⟩] := fun hm =>
  absurd ((c6_threshold_strict.1 (1/2) [⟨"A", 0, 1/2⟩] ⟨0, "A", 1/2⟩).mp hm).2
    (by with_unfolding_all decide)

/-! ## C8: single-segment boundary -/

theorem get_combinations_short (l : List String) (h : l.length ≤ 1) :
    get_combinations l = [] := by
  rw [get_combinations]
  have h0 : l.length - 1 = 0 := by omega
  rw [h0]
  simp

theorem availability_segment_mem (rows : List MapperRow) :
    ∀ c ∈ availability rows,
      c.segment_fullname ∈ rows.map (fun r => r.segment_fullname) := by
  intro c hc
  rcases List.mem_map.mp hc with ⟨p, hp, rfl⟩
  rw [create_all_dates, List.mem_flatMap] at hp
  rcases hp with ⟨h', _, hpm⟩
  rcases List.mem_map.mp hpm with ⟨s', hs', heq⟩
  have h2 : s' = p.2 := congrArg Prod.snd heq
  rw [h2] at hs'
  exact List.mem_dedup.mp hs'

/-- C8: when the input has a single distinct `segment_fullname`, the whole
combination pipeline yields empty tables (and in particular raises no
error): the qualifying list of each day has at most one element, so combination
enumeration yields the empty set and the day is dropped before exploding. -/
theorem c8_single_segment (threshold : ℚ) (rows : List MapperRow) (s₀ : String)
    (hs : ∀ r ∈ rows, r.segment_fullname = s₀) :
    available_segments_by_day threshold rows = []
    ∧ counter_combinations threshold rows = []
    ∧ best_combinations threshold rows = [] := by
  have hseg : ∀ c ∈ availability rows, c.segment_fullname = s₀ := by
    intro c hc
    rcases List.mem_map.mp (availability_segment_mem rows c hc) with ⟨r, hr, hrc⟩
    rw [← hrc]
    exact hs r hr
  have hK : ∀ k ∈ List.insertionSort keyLe
      (((availability rows).map (fun c => (c.day, c.segment_fullname))).dedup),
      k.2 = s₀ := by
    intro k hk
    have hk' := (List.perm_insertionSort keyLe _).mem_iff.mp hk
    rcases List.mem_map.mp (List.mem_dedup.mp hk') with ⟨c, hc, rfl⟩
    exact hseg c hc
  have hKnodup : (List.insertionSort keyLe
      (((availability rows).map (fun c => (c.day, c.segment_fullname))).dedup)).Nodup :=
    ((List.perm_insertionSort keyLe _).symm).nodup (List.nodup_dedup _)
  have hdays : ((availability_day rows).map (fun e : DayEntry => e.day)).Nodup := by
    rw [availability_day, List.map_map]
    exact nodup_map_fst_of_snd_const s₀ _ hKnodup hK
  have hqdays : ((qualifying_rows threshold rows).map (fun e : DayEntry => e.day)).Nodup :=
    ((List.filter_sublist _).map (fun e : DayEntry => e.day)).nodup hdays
  have hlist : ∀ d : Nat,
      get_combinations (((qualifying_rows threshold rows).filter
        (fun e => decide (e.day = d))).map (fun e => e.segment_fullname)) = [] := by
    intro d
    apply get_combinations_short
    rw [List.length_map]
    exact length_filter_le_one (fun e : DayEntry => e.day) d _ hqdays
  have h1 : available_segments_by_day threshold rows = [] := by
    rw [List.eq_nil_iff_forall_not_mem]
    intro x hx
    rw [available_segments_by_day, List.mem_flatMap] at hx
    rcases hx with ⟨p, hp, _⟩
    rcases List.mem_filter.mp hp with ⟨hpm, hplen⟩
    rcases List.mem_map.mp hpm with ⟨d, _, rfl⟩
    simp only [decide_eq_true_eq] at hplen
    rw [hlist d] at hplen
    simp at hplen
  have h2 : counter_combinations threshold rows = [] := by
    rw [counter_combinations, h1]
    rfl
  refine ⟨h1, h2, ?_⟩
  rw [best_combinations, h2, best_of_counter]
  rfl

/-- Witness for C8 at a concrete two-day, one-segment input. -/
theorem c8_single_segment_witness :
    available_segments_by_day 0 [⟨"X", 0, 1⟩, ⟨"X", 24, 1⟩] = []
    ∧ counter_combinations 0 [⟨"X", 0, 1⟩, ⟨"X", 24, 1⟩] = []
    ∧ best_combinations 0 [⟨"X", 0, 1⟩, ⟨"X", 24, 1⟩] = [] :=
  c8_single_segment 0 [⟨"X", 0, 1⟩, ⟨"X", 24, 1⟩] ("X") (by decide)

/-! ## C5: best-combination selection -/

theorem le_maxDays (g : List CEntry) : ∀ e ∈ g, e.available_days ≤ maxDays g := by
  intro e he
  exact (le_foldl_max (g.map (fun x => x.available_days)) 0).2 _
    (List.mem_map_of_mem (fun x => x.available_days) he)

theorem maxDays_attained (g : List CEntry) (hg : g ≠ []) :
    ∃ e ∈ g, e.available_days = maxDays g := by
  have hmem := foldl_max_mem (g.map (fun x => x.available_days)) 0
  rcases List.mem_cons.mp hmem with h0 | hmap
  · match g, hg with
    | e :: t, _ =>
      refine ⟨e, List.mem_cons_self e t, ?_⟩
      have hle := le_maxDays (e :: t) e (List.mem_cons_self e t)
      have h0' : maxDays (e :: t) = 0 := h0
      omega
  · rcases List.mem_map.mp hmap with ⟨e, he, hd⟩
    exact ⟨e, he, hd⟩

theorem best_of_counter_spec (ctr : List CEntry) :
    ((best_of_counter ctr).map (fun e => e.combination_length)
      = List.insertionSort (· ≤ ·) ((ctr.map (fun e => e.combination_length)).dedup))
    ∧ ∀ e ∈ best_of_counter ctr,
        e ∈ ctr
        ∧ (∀ x ∈ ctr, x.combination_length = e.combination_length →
            x.available_days ≤ e.available_days)
        ∧ ∃ l₁ l₂,
            ctr.filter (fun x => decide (x.combination_length = e.combination_length))
              = l₁ ++ e :: l₂
            ∧ ∀ x ∈ l₁, x.available_days < e.available_days := by
  constructor
  · apply map_filterMap_total
    intro L hL
    have hL' : L ∈ ctr.map (fun e => e.combination_length) :=
      List.mem_dedup.mp ((List.perm_insertionSort (· ≤ ·) _).mem_iff.mp hL)
    rcases List.mem_map.mp hL' with ⟨x, hx, hxL⟩
    have hxf : x ∈ ctr.filter (fun e => decide (e.combination_length = L)) :=
      List.mem_filter.mpr ⟨hx, by simp [hxL]⟩
    have hne : ctr.filter (fun e => decide (e.combination_length = L)) ≠ [] := by
      intro h0; rw [h0] at hxf; exact List.not_mem_nil x hxf
    rcases maxDays_attained _ hne with ⟨b, hb, hbd⟩
    have hsome : ((ctr.filter (fun e => decide (e.combination_length = L))).find?
        (fun e => decide (e.available_days
          = maxDays (ctr.filter (fun e => decide (e.combination_length = L)))))).isSome := by
      rw [List.find?_isSome]
      exact ⟨b, hb, by simp [hbd]⟩
    rcases Option.isSome_iff_exists.mp hsome with ⟨c, hc⟩
    refine ⟨c, hc, ?_⟩
    have hcf := List.mem_of_find?_eq_some hc
    have := (List.mem_filter.mp hcf).2
    simpa using this
  · intro e he
    rcases List.mem_filterMap.mp he with ⟨L, _, hfind⟩
    have hef := List.mem_of_find?_eq_some hfind
    rcases List.mem_filter.mp hef with ⟨hectr, heL'⟩
    have heL : e.combination_length = L := by simpa using heL'
    have hemax : e.available_days
        = maxDays (ctr.filter (fun x => decide (x.combination_length = L))) := by
      have := List.find?_some hfind
      simpa using this
    subst heL
    refine ⟨hectr, ?_, ?_⟩
    · intro x hx hxlen
      have hxf : x ∈ ctr.filter
          (fun y => decide (y.combination_length = e.combination_length)) :=
        List.mem_filter.mpr ⟨hx, by simp [hxlen]⟩
      rw [hemax]
      exact le_maxDays _ x hxf
    · rcases find?_split _ _ e hfind with ⟨l₁, l₂, hsplit, hl₁⟩
      refine ⟨l₁, l₂, hsplit, ?_⟩
      intro x hx
      have hxf : x ∈ ctr.filter
          (fun y => decide (y.combination_length = e.combination_length)) := by
        rw [hsplit]
        exact List.mem_append_left _ hx
      have hxle := hemax ▸ le_maxDays _ x hxf
      have hxne : x.available_days ≠ e.available_days := by
        have := hl₁ x hx
        rw [hemax]
        simpa using this
      omega

/-- C5: `best_combinations` returns exactly one row per distinct
`combination_length` present in the counted data (in sorted length order);
each returned row belongs to the counted data and has the maximum
`available_days` among rows of its length, and on a tie the first maximum
encountered in the iteration order of the counted table wins (all earlier rows of
that length are strictly smaller).  Concretely, with `("A","B")` at 5 days
and `("A","C")` at 3 days (both length 2), the selection stage keeps
`("A","B")`. -/
theorem c5_best_selection :
    (∀ (threshold : ℚ) (rows : List MapperRow),
      ((best_combinations threshold rows).map (fun e => e.combination_length)
        = List.insertionSort (· ≤ ·)
            (((counter_combinations threshold rows).map
              (fun e => e.combination_length)).dedup))
      ∧ ∀ e ∈ best_combinations threshold rows,
          e ∈ counter_combinations threshold rows
          ∧ (∀ x ∈ counter_combinations threshold rows,
              x.combination_length = e.combination_length →
              x.available_days ≤ e.available_days)
          ∧ ∃ l₁ l₂,
              (counter_combinations threshold rows).filter
                  (fun x => decide (x.combination_length = e.combination_length))
                = l₁ ++ e :: l₂
              ∧ ∀ x ∈ l₁, x.available_days < e.available_days)
    ∧ best_of_counter [⟨["A", "B"], 5, 2⟩, ⟨["A", "C"], 3, 2⟩] = [⟨["A", "B"], 5, 2⟩] :=
  ⟨fun threshold rows => best_of_counter_spec (counter_combinations threshold rows),
    by decide⟩

/-- Witness for C5, instantiated at a concrete one-segment input. -/
theorem c5_best_selection_witness :
    (best_combinations 0 [⟨"A", 0, 1⟩]).map (fun e => e.combination_length)
      = List.insertionSort (· ≤ ·)
          (((counter_combinations 0 [⟨"A", 0, 1⟩]).map
            (fun e => e.combination_length)).dedup) :=
  (c5_best_selection.1 0 [⟨"A", 0, 1⟩]).1

/-! ## C7: `best_combinations_details` on an absent length -/

/-- Counterexample to C7 as stated: on a dataset with a single segment no
length-2 combination exists, and `best_combinations_details` hits
`top_combinations[...]["combinations"].values[0]` on an empty selection,
raising an uncaught `IndexError` — a crash, not a `CombinationNotFound`
condition surfaced as a normal "no result" outcome (no such condition or
handler exists anywhere in the source). -/
theorem c7_details_counterexample :
    best_combinations_details 2 0 [⟨"A", 0, 1⟩] = Except.error ("IndexError") := by
  with_unfolding_all decide

/-- C7 (amended): when no best combination of the requested length exists
the lookup raises an uncaught `IndexError`; when one exists, the function
returns exactly the enriched rows whose `segment_fullname` is in the winning
combination and whose day is in the qualifying-day list of that combination (a
row filter, all other columns untouched). -/
theorem c7_details_amended (L : Nat) (threshold : ℚ) (rows : List MapperRow) :
    (((best_combinations threshold rows).filter
        (fun e => decide (e.combination_length = L))).map (fun e => e.combinations) = []
      → best_combinations_details L threshold rows = Except.error ("IndexError"))
    ∧ ∀ c rest,
        ((best_combinations threshold rows).filter
          (fun e => decide (e.combination_length = L))).map (fun e => e.combinations)
          = c :: rest →
        ∃ res, best_combinations_details L threshold rows = Except.ok res
          ∧ ∀ r, r ∈ res ↔ r ∈ rows ∧ r.segment_fullname ∈ c
              ∧ r.date / 24 ∈ ((available_segments_by_day threshold rows).filter
                  (fun p => decide (p.2 = c))).map (fun p => p.1) := by
  constructor
  · intro h
    rw [best_combinations_details, h]
  · intro c rest h
    rw [best_combinations_details, h]
    refine ⟨_, rfl, ?_⟩
    intro r
    rw [List.mem_filter]
    simp

/-- Witness for the amended statement of C7: a two-segment, two-day dataset where
the winning length-2 combination is `("A","B")` and the function returns the
filtered rows. -/
theorem c7_details_amended_witness :
    ∃ res, best_combinations_details 2 0
        [⟨"A", 23, 1⟩, ⟨"B", 23, 1⟩, ⟨"A", 24, 1⟩, ⟨"B", 24, 1⟩] = Except.ok res
      ∧ ∀ r, r ∈ res ↔ r ∈ [⟨"A", 23, 1⟩, ⟨"B", 23, 1⟩, ⟨"A", 24, 1⟩, ⟨"B", 24, 1⟩]
          ∧ r.segment_fullname ∈ ["A", "B"]
          ∧ r.date / 24 ∈ ((available_segments_by_day 0
              [⟨"A", 23, 1⟩, ⟨"B", 23, 1⟩, ⟨"A", 24, 1⟩, ⟨"B", 24, 1⟩]).filter
                (fun p => decide (p.2 = ["A", "B"]))).map (fun p => p.1) :=
  (c7_details_amended 2 0 [⟨"A", 23, 1⟩, ⟨"B", 23, 1⟩, ⟨"A", 24, 1⟩, ⟨"B", 24, 1⟩]).2
    ["A", "B"] [] (by with_unfolding_all decide)

/-! ## Enrichment stages (src/enriched_data_handler.py, lines 78-140)

Timestamps are hours since an arbitrary epoch in the single fixed time zone
to which `__enrich_dates` converts every record (`Europe/Paris`); the derived
`day` is `date / 24` and `hour` is `date % 24`. -/

/-- One raw stored record (columns the enrichment reads: `instance_id`,
`date`, `uptime`; `counts` stands for the untouched raw count columns). -/
structure RawRow where
  instance_id : Nat
  date : Nat
  uptime : ℚ
  counts : Nat
deriving DecidableEq

/-- A record after `__enrich_dates` (lines 78-91), which adds the calendar
columns derived from the timestamp. -/
structure DatedRow extends RawRow where
  day : Nat
  hour : Nat
deriving DecidableEq

/-- One row of the sensors reference table produced by
`get_telraam_information` (a mapping from `instance_id` to segment data). -/
structure Sensor where
  instance_id : Nat
  segment_id : Nat
  segment_fullname : String
deriving DecidableEq

/-- A record after `__enrich_sensors` (lines 93-102): the left join adds
`segment_id` / `segment_fullname`, null (`none`) for unmatched sensors. -/
structure SensorRow extends DatedRow where
  segment_id : Option Nat
  segment_fullname : Option String
deriving DecidableEq

/-- One public-holiday row (`get_public_holidays`): one row per calendar day
with a label; its `public_holiday_flag` column is the constant 1. -/
structure Holiday where
  day : Nat
  public_holiday : String
deriving DecidableEq

/-- One vacation period (`get_vacations`): label, start and end instants;
its `vacation_flag` column is the constant 1. -/
structure Vacation where
  vacation : String
  start_date : Nat
  end_date : Nat
deriving DecidableEq

/-- A record after `__enrich_special_events` (lines 104-133). -/
structure EventRow extends SensorRow where
  public_holiday_flag : Nat
  public_holiday : String
  vacation_flag : Nat
  vacation : String
deriving DecidableEq

/-- Model of `__enrich_dates` (lines 78-91): a pure column-adding map. -/
def enrich_dates (rows : List RawRow) : List DatedRow :=
  rows.map (fun r => { toRawRow := r, day := r.date / 24, hour := r.date % 24 })

/-- Model of `__enrich_sensors` (lines 93-102): left merge with the sensors table on
`instance_id`; an unmatched record keeps one output row with null segment
columns, a matched record gets one output row per matching sensors row. -/
def enrich_sensors (rows : List DatedRow) (sensors : List Sensor) : List SensorRow :=
  rows.flatMap (fun r =>
    match sensors.filter (fun s => decide (s.instance_id = r.instance_id)) with
    | [] => [{ toDatedRow := r, segment_id := none, segment_fullname := none }]
    | m :: ms => (m :: ms).map (fun s =>
        { toDatedRow := r, segment_id := some s.segment_id,
          segment_fullname := some s.segment_fullname }))

/-- The public-holiday left merge plus `fillna` of `__enrich_special_events`
(lines 108-113).  The vacation columns do not exist yet at this point in the
source; they are initialised here to the values `0` / `""` and are entirely
overwritten by the vacation step. -/
def holiday_merge (rows : List SensorRow) (holidays : List Holiday) : List EventRow :=
  rows.flatMap (fun r =>
    match holidays.filter (fun h => decide (h.day = r.day)) with
    | [] => [{ toSensorRow := r, public_holiday_flag := 0,
               public_holiday := "No public holiday", vacation_flag := 0, vacation := "" }]
    | m :: ms => (m :: ms).map (fun h =>
        { toSensorRow := r, public_holiday_flag := 1, public_holiday := h.public_holiday,
          vacation_flag := 0, vacation := "" }))

/-- Sort key of `vacations.sort_values(by="start_date")` (line 116). -/
def vacLe (a b : Vacation) : Prop := a.start_date ≤ b.start_date

instance : DecidableRel vacLe := fun a b =>
  inferInstanceAs (Decidable (a.start_date ≤ b.start_date))

instance : IsTotal Vacation vacLe := ⟨fun a b => Nat.le_total a.start_date b.start_date⟩

instance : IsTrans Vacation vacLe := ⟨fun _ _ _ => Nat.le_trans⟩

/-- Sort key of `data_sensors.sort_values(by="date")` (line 117). -/
def evDateLe (a b : EventRow) : Prop := a.date ≤ b.date

instance : DecidableRel evDateLe := fun a b =>
  inferInstanceAs (Decidable (a.date ≤ b.date))

instance : IsTotal EventRow evDateLe := ⟨fun a b => Nat.le_total a.date b.date⟩

instance : IsTrans EventRow evDateLe := ⟨fun _ _ _ => Nat.le_trans⟩

/-- The backward as-of match of `pd.merge_asof(..., direction="backward")`
(lines 118-124): the vacation row with the latest `start_date` at or before
the timestamp of the record, preferring the later row of the (sorted) table when
several qualify. -/
def asofBackward (t : Nat) : List Vacation → Option Vacation
  | [] => none
  | v :: vs =>
    match asofBackward t vs with
    | some w => some w
    | none => if v.start_date ≤ t then some v else none

/-- The mask-and-reset step of `__enrich_special_events` (lines 125-131):
`vacation_flag = 1` iff the as-of match exists, is non-null, and the record's
timestamp lies inside `[start_date, end_date]`; otherwise the flag is forced
to 0 and the label reset to `"No vacation"`. -/
def vacApply (vacs : List Vacation) (r : EventRow) : EventRow :=
  match asofBackward r.date vacs with
  | none => { r with vacation_flag := 0, vacation := "No vacation" }
  | some v =>
    if v.start_date ≤ r.date ∧ r.date ≤ v.end_date
    then { r with vacation_flag := 1, vacation := v.vacation }
    else { r with vacation_flag := 0, vacation := "No vacation" }

/-- Model of `__enrich_special_events` (lines 104-133): holiday merge, then sort the
vacations by `start_date` and the records by `date`, then apply the backward
as-of match with its bounds check to every record. -/
def enrich_special_events (rows : List SensorRow) (holidays : List Holiday)
    (vacations : List Vacation) : List EventRow :=
  (List.insertionSort evDateLe (holiday_merge rows holidays)).map
    (vacApply (List.insertionSort vacLe vacations))

/-- Model of `get_enriched_data` (lines 135-140) composed with the construction of
`DataAvailabilityMapper` on the result: the full pipeline of one run.
Records whose `segment_fullname` is null are dropped by the mapper's
`groupby` on that column, so the grid input keeps only matched rows. -/
def full_pipeline (raw : List RawRow) (sensors : List Sensor) (holidays : List Holiday)
    (vacations : List Vacation) (threshold : ℚ) :
    List EventRow × List Cell × List DayEntry × List CEntry × List CEntry :=
  let enriched := enrich_special_events (enrich_sensors (enrich_dates raw) sensors)
    holidays vacations
  let grid_input := enriched.filterMap (fun r =>
    r.segment_fullname.map (fun s => (⟨s, r.date, r.uptime⟩ : MapperRow)))
  (enriched, availability grid_input, availability_day grid_input,
    counter_combinations threshold grid_input, best_combinations threshold grid_input)

/-! ## C3: backward as-of vacation matching -/

theorem asofBackward_none_no_match (t : Nat) :
    ∀ vacs : List Vacation, asofBackward t vacs = none →
      ∀ v ∈ vacs, ¬v.start_date ≤ t := by
  intro vacs
  induction vacs with
  | nil => intro _ v hv; simp at hv
  | cons u vs ih =>
    intro h v hv
    rw [asofBackward] at h
    cases hrec : asofBackward t vs with
    | some w => rw [hrec] at h; cases h
    | none =>
      rw [hrec] at h
      by_cases hu : u.start_date ≤ t
      · rw [if_pos hu] at h; cases h
      · rcases List.mem_cons.mp hv with rfl | hv'
        · exact hu
        · exact ih hrec v hv'

theorem asofBackward_some_spec (t : Nat) :
    ∀ vacs : List Vacation, ∀ v, asofBackward t vacs = some v →
      v ∈ vacs ∧ v.start_date ≤ t := by
  intro vacs
  induction vacs with
  | nil => intro v h; cases h
  | cons u vs ih =>
    intro v h
    rw [asofBackward] at h
    cases hrec : asofBackward t vs with
    | some w =>
      rw [hrec] at h
      have hwv : w = v := by simpa using h
      subst hwv
      rcases ih w hrec with ⟨hm, hle⟩
      exact ⟨List.mem_cons_of_mem u hm, hle⟩
    | none =>
      rw [hrec] at h
      by_cases hu : u.start_date ≤ t
      · rw [if_pos hu] at h
        have huv : u = v := by simpa using h
        subst huv
        exact ⟨List.mem_cons_self u vs, hu⟩
      · rw [if_neg hu] at h; cases h

theorem asofBackward_latest (t : Nat) :
    ∀ vacs : List Vacation, List.Sorted vacLe vacs → ∀ v, asofBackward t vacs = some v →
      ∀ w ∈ vacs, w.start_date ≤ t → w.start_date ≤ v.start_date := by
  intro vacs
  induction vacs with
  | nil => intro _ v h; cases h
  | cons u vs ih =>
    intro hsort v h w hw hwle
    rcases List.sorted_cons.mp hsort with ⟨hu_all, htail⟩
    rw [asofBackward] at h
    cases hrec : asofBackward t vs with
    | some w0 =>
      rw [hrec] at h
      have hw0v : w0 = v := by simpa using h
      subst hw0v
      rcases List.mem_cons.mp hw with rfl | hw'
      · exact hu_all w0 (asofBackward_some_spec t vs w0 hrec).1
      · exact ih htail w0 hrec w hw' hwle
    | none =>
      rw [hrec] at h
      by_cases hu : u.start_date ≤ t
      · rw [if_pos hu] at h
        have huv : u = v := by simpa using h
        subst huv
        rcases List.mem_cons.mp hw with rfl | hw'
        · exact Nat.le_refl _
        · exact absurd hwle (asofBackward_none_no_match t vs hrec w hw')
      · rw [if_neg hu] at h; cases h

/-- The row update performed when the vacation mask is false (flag forced
to 0, label reset). -/
def vacReset (r : EventRow) : EventRow :=
  { r with vacation_flag := 0, vacation := "No vacation" }

/-- The row update performed when the vacation mask is true. -/
def vacSet (r : EventRow) (v : Vacation) : EventRow :=
  { r with vacation_flag := 1, vacation := v.vacation }

theorem vacApply_date (vacs : List Vacation) (r : EventRow) :
    (vacApply vacs r).date = r.date := by
  rw [vacApply]
  split
  · rfl
  · split <;> rfl

theorem vacApply_toSensorRow (vacs : List Vacation) (r : EventRow) :
    (vacApply vacs r).toSensorRow = r.toSensorRow := by
  rw [vacApply]
  split
  · rfl
  · split <;> rfl

/-- C3: the special-event enricher matches every record backward to the
vacation period with the latest `start_date` at or before the record's
timestamp (first conjunct: what the backward match over the sorted table
returns), and keeps the match only if the timestamp is also at or before
that period's `end_date`; otherwise the flag is 0 and the label is reset to
`"No vacation"` (second conjunct, on every output row). -/
theorem c3_asof_vacation (rows : List SensorRow) (holidays : List Holiday)
    (vacations : List Vacation) :
    (∀ (v : Vacation) (t : Nat),
      asofBackward t (List.insertionSort vacLe vacations) = some v →
      v ∈ vacations ∧ v.start_date ≤ t
      ∧ ∀ w ∈ vacations, w.start_date ≤ t → w.start_date ≤ v.start_date)
    ∧ ∀ o ∈ enrich_special_events rows holidays vacations,
        (o.vacation_flag = 1
          ↔ ∃ v, asofBackward o.date (List.insertionSort vacLe vacations) = some v
              ∧ o.date ≤ v.end_date)
        ∧ (o.vacation_flag ≠ 1 → o.vacation_flag = 0 ∧ o.vacation = "No vacation") := by
  constructor
  · intro v t h
    rcases asofBackward_some_spec t _ v h with ⟨hm, hle⟩
    refine ⟨(List.perm_insertionSort vacLe vacations).mem_iff.mp hm, hle, ?_⟩
    intro w hw hwle
    exact asofBackward_latest t _
      (List.sorted_insertionSort vacLe vacations) v h w
      ((List.perm_insertionSort vacLe vacations).mem_iff.mpr hw) hwle
  · intro o ho
    rcases List.mem_map.mp ho with ⟨r, _, rfl⟩
    cases h : asofBackward r.date (List.insertionSort vacLe vacations) with
    | none =>
      have he : vacApply (List.insertionSort vacLe vacations) r = vacReset r := by
        rw [vacApply, h]; rfl
      rw [he]
      refine ⟨?_, fun _ => ⟨rfl, rfl⟩⟩
      constructor
      · intro h01; cases h01
      · rintro ⟨v, hv, -⟩
        have hdate : (vacReset r).date = r.date := rfl
        rw [hdate, h] at hv
        cases hv
    | some v =>
      have he : vacApply (List.insertionSort vacLe vacations) r
          = if v.start_date ≤ r.date ∧ r.date ≤ v.end_date
            then vacSet r v else vacReset r := by
        rw [vacApply, h]
        rfl
      rw [he]
      by_cases hc : v.start_date ≤ r.date ∧ r.date ≤ v.end_date
      · rw [if_pos hc]
        refine ⟨?_, fun hne => absurd rfl hne⟩
        constructor
        · intro _
          refine ⟨v, ?_, hc.2⟩
          have hdate : (vacSet r v).date = r.date := rfl
          rw [hdate, h]
        · intro _; rfl
      · rw [if_neg hc]
        refine ⟨?_, fun _ => ⟨rfl, rfl⟩⟩
        constructor
        · intro h01; cases h01
        · rintro ⟨v', hv', hend⟩
          have hdate : (vacReset r).date = r.date := rfl
          rw [hdate, h] at hv'
          have hvv : v = v' := by simpa using hv'
          subst hvv
          have hstart := (asofBackward_some_spec r.date _ v h).2
          rw [hdate] at hend
          exact absurd ⟨hstart, hend⟩ hc

/-- The single output row of the C3 example: one record at timestamp
20240915 with one vacation period [20240701, 20240831]. -/
def c3_row : EventRow :=
  ⟨⟨⟨⟨1, 20240915, 1, 0⟩, 0, 0⟩, none, none⟩, 0, "No public holiday", 0, "No vacation"⟩

/-- Witness for C3: the backward match finds the period (latest start at or
before the record), but the record is past its `end_date`, so the flag is 0. -/
theorem c3_asof_vacation_witness :
    c3_row ∈ enrich_special_events [⟨⟨⟨1, 20240915, 1, 0⟩, 0, 0⟩, none, none⟩] []
        [⟨"Summer", 20240701, 20240831⟩]
    ∧ (c3_row.vacation_flag = 1
        ↔ ∃ v, asofBackward c3_row.date
            (List.insertionSort vacLe [⟨"Summer", 20240701, 20240831⟩]) = some v
          ∧ c3_row.date ≤ v.end_date)
    ∧ c3_row.vacation_flag = 0 ∧ c3_row.vacation = "No vacation" := by
  refine ⟨by decide, ?_, by decide, by decide⟩
  exact (((c3_asof_vacation [⟨⟨⟨1, 20240915, 1, 0⟩, 0, 0⟩, none, none⟩] []
    [⟨"Summer", 20240701, 20240831⟩]).2 c3_row (by decide))).1

/-! ## C4: row-count invariant of the enrichment stages -/

theorem enrich_sensors_length (rows : List DatedRow) (sensors : List Sensor)
    (hs : (sensors.map (fun s => s.instance_id)).Nodup) :
    (enrich_sensors rows sensors).length = rows.length := by
  apply length_flatMap_one
  intro r _
  cases hm : sensors.filter (fun s => decide (s.instance_id = r.instance_id)) with
  | nil => rfl
  | cons m ms =>
    have hb := length_filter_le_one (fun s : Sensor => s.instance_id) r.instance_id
      sensors hs
    rw [hm] at hb
    have hms : ms = [] := by
      cases ms with
      | nil => rfl
      | cons _ _ => simp at hb
    subst hms
    rfl

theorem holiday_merge_map_toSensorRow (holidays : List Holiday)
    (hh : (holidays.map (fun h => h.day)).Nodup) :
    ∀ rows : List SensorRow,
      (holiday_merge rows holidays).map (fun o => o.toSensorRow) = rows := by
  intro rows
  induction rows with
  | nil => rfl
  | cons r t ih =>
    rw [holiday_merge, List.flatMap_cons, List.map_append]
    rw [holiday_merge] at ih
    rw [ih]
    cases hm : holidays.filter (fun h => decide (h.day = r.day)) with
    | nil => rfl
    | cons m ms =>
      have hb := length_filter_le_one (fun h : Holiday => h.day) r.day holidays hh
      rw [hm] at hb
      have hms : ms = [] := by
        cases ms with
        | nil => rfl
        | cons _ _ => simp at hb
      subst hms
      rfl

theorem holiday_merge_length (rows : List SensorRow) (holidays : List Holiday)
    (hh : (holidays.map (fun h => h.day)).Nodup) :
    (holiday_merge rows holidays).length = rows.length := by
  conv_rhs => rw [← holiday_merge_map_toSensorRow holidays hh rows]
  rw [List.length_map]

/-- C4: each enrichment stage returns exactly as many rows as its input —
the calendar stage is a column-adding map, and the sensor and special-event
left joins match at most one reference row per record (the reference tables
are mappings: unique `instance_id`s, one holiday row per day; the as-of join
matches at most one vacation row by construction), with unmatched records
kept as a single row with fill values. -/
theorem c4_row_count (raw : List RawRow) (dated : List DatedRow)
    (srows : List SensorRow) (sensors : List Sensor) (holidays : List Holiday)
    (vacations : List Vacation)
    (hsensors : (sensors.map (fun s => s.instance_id)).Nodup)
    (hholidays : (holidays.map (fun h => h.day)).Nodup) :
    (enrich_dates raw).length = raw.length
    ∧ (enrich_sensors dated sensors).length = dated.length
    ∧ (enrich_special_events srows holidays vacations).length = srows.length := by
  refine ⟨by simp [enrich_dates], enrich_sensors_length dated sensors hsensors, ?_⟩
  rw [enrich_special_events, List.length_map,
    (List.perm_insertionSort evDateLe (holiday_merge srows holidays)).length_eq]
  exact holiday_merge_length srows holidays hholidays

/-- Witness for C4: a record whose sensor (id 9) has no metadata row and
whose day has no holiday row still yields exactly one row per stage. -/
theorem c4_row_count_witness :
    (enrich_dates [⟨9, 30, 1, 5⟩]).length = ([⟨9, 30, 1, 5⟩] : List RawRow).length
    ∧ (enrich_sensors [⟨⟨9, 30, 1, 5⟩, 1, 6⟩] [⟨7, 1, "1 - X"⟩]).length
        = ([⟨⟨9, 30, 1, 5⟩, 1, 6⟩] : List DatedRow).length
    ∧ (enrich_special_events [⟨⟨⟨9, 30, 1, 5⟩, 1, 6⟩, none, none⟩] [⟨0, "New Year"⟩]
        []).length = ([⟨⟨⟨9, 30, 1, 5⟩, 1, 6⟩, none, none⟩] : List SensorRow).length :=
  c4_row_count [⟨9, 30, 1, 5⟩] [⟨⟨9, 30, 1, 5⟩, 1, 6⟩]
    [⟨⟨⟨9, 30, 1, 5⟩, 1, 6⟩, none, none⟩] [⟨7, 1, "1 - X"⟩] [⟨0, "New Year"⟩] []
    (by decide) (by decide)

/-! ## C10: the special-event stage reorders rows by timestamp -/

/-- C10: the special-event enricher returns its rows sorted in ascending
order of the record timestamp (the sort is applied for the as-of join and
never undone), while the underlying row set is preserved (as a permutation
of the input rows). -/
theorem c10_events_reordered (srows : List SensorRow) (holidays : List Holiday)
    (vacations : List Vacation)
    (hholidays : (holidays.map (fun h => h.day)).Nodup) :
    List.Sorted evDateLe (enrich_special_events srows holidays vacations)
    ∧ ((enrich_special_events srows holidays vacations).map
        (fun o => o.toSensorRow)).Perm srows := by
  constructor
  · rw [enrich_special_events]
    show List.Pairwise evDateLe _
    apply List.Pairwise.map (vacApply (List.insertionSort vacLe vacations))
    · intro a b hab
      show (vacApply _ a).date ≤ (vacApply _ b).date
      rw [vacApply_date, vacApply_date]
      exact hab
    · exact List.sorted_insertionSort evDateLe _
  · rw [enrich_special_events, List.map_map]
    simp only [Function.comp_def]
    rw [List.map_congr_left (fun a _ => vacApply_toSensorRow
      (List.insertionSort vacLe vacations) a)]
    have hperm := (List.perm_insertionSort evDateLe (holiday_merge srows holidays)).map
      (fun o : EventRow => o.toSensorRow)
    rw [holiday_merge_map_toSensorRow holidays hholidays srows] at hperm
    exact hperm

/-- Witness for C10 at an input whose two rows arrive in descending
timestamp order. -/
theorem c10_events_reordered_witness :
    List.Sorted evDateLe (enrich_special_events
      [⟨⟨⟨1, 50, 1, 0⟩, 2, 2⟩, none, none⟩, ⟨⟨⟨1, 20, 1, 0⟩, 0, 20⟩, none, none⟩] [] [])
    ∧ ((enrich_special_events
        [⟨⟨⟨1, 50, 1, 0⟩, 2, 2⟩, none, none⟩, ⟨⟨⟨1, 20, 1, 0⟩, 0, 20⟩, none, none⟩]
        [] []).map (fun o => o.toSensorRow)).Perm
      [⟨⟨⟨1, 50, 1, 0⟩, 2, 2⟩, none, none⟩, ⟨⟨⟨1, 20, 1, 0⟩, 0, 20⟩, none, none⟩] :=
  c10_events_reordered
    [⟨⟨⟨1, 50, 1, 0⟩, 2, 2⟩, none, none⟩, ⟨⟨⟨1, 20, 1, 0⟩, 0, 20⟩, none, none⟩] [] []
    (by decide)

/-! ## C9: determinism of the full pipeline -/

/-- C9: the full pipeline — enrichment, grid building, combination scoring —
is a pure function of its input tables: two runs on equal inputs produce
equal output tables (same rows, same values, same order).  The embedding
contains no other input: the source reads no clock, randomness or global
mutable state in these code paths. -/
theorem c9_pipeline_deterministic (raw₁ raw₂ : List RawRow)
    (sensors₁ sensors₂ : List Sensor) (holidays₁ holidays₂ : List Holiday)
    (vacations₁ vacations₂ : List Vacation) (threshold₁ threshold₂ : ℚ)
    (h1 : raw₁ = raw₂) (h2 : sensors₁ = sensors₂) (h3 : holidays₁ = holidays₂)
    (h4 : vacations₁ = vacations₂) (h5 : threshold₁ = threshold₂) :
    full_pipeline raw₁ sensors₁ holidays₁ vacations₁ threshold₁
      = full_pipeline raw₂ sensors₂ holidays₂ vacations₂ threshold₂ := by
  rw [h1, h2, h3, h4, h5]

/-- Witness for C9 at a concrete input. -/
theorem c9_pipeline_deterministic_witness :
    full_pipeline [⟨1, 8, 1, 3⟩] [⟨1, 4, "4 - Road"⟩] [] [] 0
      = full_pipeline [⟨1, 8, 1, 3⟩] [⟨1, 4, "4 - Road"⟩] [] [] 0 :=
  c9_pipeline_deterministic _ _ _ _ _ _ _ _ _ _ rfl rfl rfl rfl rfl

end Telraam
